import Mathlib

/-!
Verification of the e-commerce product URL crawler (`crawler.js`).

The development shallowly embeds the crawler's pure core:

* `isValidUrl`, `isProductUrl` — the URL classifier helpers;
* `fetchAttempts` — the retry loop around `axios.get` (HTTP 429 retried up
  to `RETRY_LIMIT` times with a cooldown wait, any other failure terminal);
* `crawlUrlF` / `crawlUrl` — the recursive, depth-bounded crawl of one URL,
  threading the mutable `visitedUrls` set explicitly and additionally
  recording, as an observation, the sequence of URLs whose fetch was issued;
* `crawlDomain`, `crawlDomains` — the per-domain entry point and the batched
  orchestration over a list of domains.

External collaborators (the WHATWG `URL` resolver and the HTTP transport)
are environment parameters: `Resolver` stands for `new URL(link, base)`
(`none` models the constructor throwing) and `Fetcher` maps a URL and an
attempt number to the outcome of `axios.get`, with a successful page body
abstracted to the list of `href` attributes the link extractor returns.
-/

namespace Crawler

/-- `leadsWith p l` is true when the character list `l` starts with `p`. -/
def leadsWith : List Char → List Char → Bool
  | [], _ => true
  | _ :: _, [] => false
  | a :: as, b :: bs => a == b && leadsWith as bs

/-- `listHas pat l` is true when `pat` occurs contiguously inside `l`. -/
def listHas (pat : List Char) : List Char → Bool
  | [] => leadsWith pat []
  | c :: cs => leadsWith pat (c :: cs) || listHas pat cs

/-- JS `String.prototype.includes`: substring containment test. -/
def strIncludes (s pat : String) : Bool :=
  listHas pat.toList s.toList

/-- The result of `new URL(link, base)`: the crawler reads `.hostname` and
`.href`; `.path` records `.pathname`, used only to state the spec-side
path-based classifier. -/
structure Url where
  hostname : String
  path : String
  href : String
deriving DecidableEq

/-- Abstract WHATWG URL resolution, `new URL(url, base)`; `none` models the
constructor throwing on a malformed URL. -/
def Resolver : Type := String → String → Option Url

/-- Outcome of one `axios.get` call: a page (abstracted to its extracted
link strings), an HTTP 429 rejection, or any other failure. -/
inductive FetchOutcome where
  | success (links : List String)
  | rateLimited
  | failure
deriving DecidableEq

/-- Abstract HTTP transport: URL and attempt number to outcome. -/
def Fetcher : Type := String → Nat → FetchOutcome

/-- `MAX_DEPTH = 3` — depth of recursive crawling. -/
def MAX_DEPTH : Nat := 3

/-- `PRODUCT_PATTERNS = [/\/product\//, /\/item\//, /\/p\//]`: each regex is
a literal substring test, so it is embedded as the substring itself. -/
def PRODUCT_PATTERNS : List String := ["/product/", "/item/", "/p/"]

/-- `PARALLEL_REQUESTS = 5` — batch size of the domain orchestrator. -/
def PARALLEL_REQUESTS : Nat := 5

/-- `RETRY_LIMIT = 3` — retry attempts for rate-limited requests. -/
def RETRY_LIMIT : Nat := 3

/-- The configuration constants, gathered so theorems can quantify over the
configured values; the source hardcodes `⟨3, 3, 5⟩`. -/
structure Config where
  maxDepth : Nat
  retryLimit : Nat
  parallel : Nat
deriving DecidableEq

/-- The configuration the source file uses. -/
def defaultConfig : Config := ⟨MAX_DEPTH, RETRY_LIMIT, PARALLEL_REQUESTS⟩

/-- `isValidUrl(url, baseDomain)`: resolve the link against the base and
test `parsedUrl.hostname.includes(baseDomain)`; a thrown resolution error is
caught and yields `false`. -/
def isValidUrl (resolve : Resolver) (url baseDomain : String) : Bool :=
  match resolve url baseDomain with
  | some parsed => strIncludes parsed.hostname baseDomain
  | none => false

/-- `isProductUrl(url)`: `PRODUCT_PATTERNS.some(p => p.test(url))`, applied
to the whole URL string. -/
def isProductUrl (url : String) : Bool :=
  PRODUCT_PATTERNS.any (fun pat => strIncludes url pat)

/-- Spec-side classifier, modelled from the spec's words: the URL's *path*
is tested against the product path patterns (§4.1 "tests the URL's path
against an ordered, configurable set of path-pattern matchers"). -/
def classifyByPath (u : Url) : Bool :=
  PRODUCT_PATTERNS.any (fun pat => strIncludes u.path pat)

/-- Observable outcome of the retry loop around `axios.get`: the extracted
links on success (`none` = terminal failure or retries exhausted), the
number of `axios.get` calls issued, and the number of cooldown waits. -/
structure FetchResultR where
  links : Option (List String)
  attempts : Nat
  waits : Nat
deriving DecidableEq

/-- The `while (attempts < RETRY_LIMIT)` retry loop of `crawlUrl`, with
`remaining = RETRY_LIMIT - attempts` as the structural measure.  A success
returns the page's links; a 429 waits once and re-enters the loop with the
counter incremented; any other failure is terminal with no retry. -/
def fetchAttempts (fetch : Fetcher) (url : String) : Nat → Nat → FetchResultR
  | _, 0 => ⟨none, 0, 0⟩
  | attempts, remaining + 1 =>
    match fetch url attempts with
    | .success links => ⟨some links, 1, 0⟩
    | .rateLimited =>
      let s := fetchAttempts fetch url (attempts + 1) remaining
      ⟨s.links, s.attempts + 1, s.waits + 1⟩
    | .failure => ⟨none, 1, 0⟩

/-- `productUrls.add(u)`: set insertion preserving first-insertion order. -/
def addUrl (s : List String) (u : String) : List String :=
  if u ∈ s then s else s ++ [u]

/-- One step of the `$('a[href]').each` loop: accumulate `(productUrls,
internalUrls)`, where a valid link is absolutized and either added to the
product set, skipped when already visited, or pushed as an internal link. -/
def collectStep (resolve : Resolver) (baseDomain : String) (visited : List String)
    (acc : List String × List String) (link : String) : List String × List String :=
  if isValidUrl resolve link baseDomain then
    match resolve link baseDomain with
    | some parsed =>
      if isProductUrl parsed.href then (addUrl acc.1 parsed.href, acc.2)
      else if parsed.href ∈ visited then acc
      else (acc.1, acc.2 ++ [parsed.href])
    | none => acc
  else acc

/-- The whole link-collection loop over the hrefs found on a page. -/
def collectLinks (resolve : Resolver) (baseDomain : String) (visited : List String)
    (links : List String) : List String × List String :=
  links.foldl (collectStep resolve baseDomain visited) ([], [])

/-- Result of one `crawlUrl` call: the accumulated product URLs, the visited
set after the call, and (as an observation of the execution, not data the
source returns) the URLs whose fetch was issued, in order. -/
structure CrawlResult where
  products : List String
  visited : List String
  fetched : List String
deriving DecidableEq

/-- The body of the `for (const internalUrl of internalUrls)` loop: crawl
one child with the threaded visited set and merge its products into the
accumulator. `f` is the recursive call at the child depth. -/
def crawlStep (f : String → List String → Nat → Option CrawlResult) (d : Nat)
    (acc : Option CrawlResult) (u : String) : Option CrawlResult :=
  match acc with
  | none => none
  | some s =>
    match f u s.visited d with
    | none => none
    | some r => some ⟨r.products.foldl addUrl s.products, r.visited, s.fetched ++ r.fetched⟩

/-- `crawlUrl(url, baseDomain, visitedUrls, depth)`, fuel-indexed: `none`
models a recursion that would run longer than `fuel` nested calls, so that
termination of the source's unbounded recursion is a provable statement
(`crawlUrlF_isSome`) rather than an artifact of the embedding.

Faithful to the source: return empty if `depth > maxDepth` or the URL is
visited (before marking!); mark visited; run the retry loop; on a terminal
fetch outcome return empty; otherwise collect the page's links and crawl
each internal link at `depth + 1`, threading the visited set. -/
def crawlUrlF (cfg : Config) (resolve : Resolver) (fetch : Fetcher) (baseDomain : String) :
    Nat → String → List String → Nat → Option CrawlResult
  | 0, _, _, _ => none
  | fuel + 1, url, visited, depth =>
    if depth > cfg.maxDepth ∨ url ∈ visited then some ⟨[], visited, []⟩
    else
      let visited1 := url :: visited
      match (fetchAttempts fetch url 0 cfg.retryLimit).links with
      | none => some ⟨[], visited1, [url]⟩
      | some links =>
        let ci := collectLinks resolve baseDomain visited1 links
        match ci.2.foldl
            (crawlStep (fun u v d => crawlUrlF cfg resolve fetch baseDomain fuel u v d) (depth + 1))
            (some ⟨ci.1, visited1, []⟩) with
        | none => none
        | some s => some ⟨s.products, s.visited, url :: s.fetched⟩

/-- The child loop of `crawlUrlF`, as a standalone recursion over the list
of internal links (proved equal to the `foldl` in `crawlUrlF`). -/
def crawlListF (cfg : Config) (resolve : Resolver) (fetch : Fetcher) (baseDomain : String)
    (fuel d : Nat) : List String → CrawlResult → Option CrawlResult
  | [], s => some s
  | u :: us, s =>
    match crawlUrlF cfg resolve fetch baseDomain fuel u s.visited d with
    | none => none
    | some r =>
      crawlListF cfg resolve fetch baseDomain fuel d us
        ⟨r.products.foldl addUrl s.products, r.visited, s.fetched ++ r.fetched⟩

/-- Total `crawlUrl`: `cfg.maxDepth + 2` nested calls always suffice
(`crawlUrlF_isSome`), so the default is never taken. -/
def crawlUrl (cfg : Config) (resolve : Resolver) (fetch : Fetcher)
    (baseDomain url : String) (visited : List String) (depth : Nat) : CrawlResult :=
  (crawlUrlF cfg resolve fetch baseDomain (cfg.maxDepth + 2) url visited depth).getD
    ⟨[], visited, []⟩

/-- `{ domain, productUrls }` — one entry of the final output list. -/
structure DomainResult where
  domain : String
  productUrls : List String
deriving DecidableEq

/-- `crawlDomain(domain)`: fresh visited set, crawl the domain root at depth
0 using the domain string itself as `baseDomain`. -/
def crawlDomain (cfg : Config) (resolve : Resolver) (fetch : Fetcher)
    (domain : String) : DomainResult :=
  ⟨domain, (crawlUrl cfg resolve fetch domain domain [] 0).products⟩

/-- The batching loop of `crawlDomains`, with batch size `p + 1`: the JS
loop advances `i` by `PARALLEL_REQUESTS`, which is positive (with batch
size 0 the JS loop would not terminate, so the positive size is taken as a
parameter). -/
def crawlDomainsAux (cfg : Config) (resolve : Resolver) (fetch : Fetcher)
    (p : Nat) : List String → List DomainResult
  | [] => []
  | d :: ds =>
    ((d :: ds).take (p + 1)).map (crawlDomain cfg resolve fetch)
      ++ crawlDomainsAux cfg resolve fetch p ((d :: ds).drop (p + 1))
termination_by l => l.length
decreasing_by
  simp only [List.drop_succ_cons, List.length_drop, List.length_cons]
  omega

/-- `crawlDomains(domains)`: process the domain list in batches of
`cfg.parallel` (`Promise.all` per batch, results concatenated in order). -/
def crawlDomains (cfg : Config) (resolve : Resolver) (fetch : Fetcher)
    (domains : List String) : List DomainResult :=
  crawlDomainsAux cfg resolve fetch (cfg.parallel - 1) domains

/-- The links a page contributes to the link graph: the valid, absolutized
hrefs of the page the fetcher (with retries) returns for `u`. -/
def resolveValid (resolve : Resolver) (baseDomain link : String) : Option String :=
  match resolve link baseDomain with
  | some parsed => if strIncludes parsed.hostname baseDomain then some parsed.href else none
  | none => none

/-- All valid absolutized hrefs among the raw links of a page. -/
def validHrefs (resolve : Resolver) (baseDomain : String) (links : List String) : List String :=
  links.filterMap (resolveValid resolve baseDomain)

/-- The site's link graph as the crawler sees it. -/
def pageLinks (cfg : Config) (resolve : Resolver) (fetch : Fetcher)
    (baseDomain u : String) : List String :=
  match (fetchAttempts fetch u 0 cfg.retryLimit).links with
  | some links => validHrefs resolve baseDomain links
  | none => []

/-- URLs reachable from `u` in exactly `k` link steps. -/
def reachFrontier (g : String → List String) : Nat → String → List String
  | 0, u => [u]
  | k + 1, u => (g u).flatMap (reachFrontier g k)

/-! ### Substring containment -/

theorem leadsWith_iff (p : List Char) : ∀ l, leadsWith p l = true ↔ ∃ t, l = p ++ t := by
  induction p with
  | nil =>
    intro l
    simp only [leadsWith, List.nil_append]
    exact iff_of_true trivial ⟨l, rfl⟩
  | cons a as ih =>
    intro l
    cases l with
    | nil =>
      simp only [leadsWith, List.cons_append]
      constructor
      · intro h; exact absurd h (by simp)
      · rintro ⟨t, h⟩; exact absurd h (by simp)
    | cons b bs =>
      simp only [leadsWith, Bool.and_eq_true, beq_iff_eq, ih, List.cons_append,
        List.cons.injEq]
      constructor
      · rintro ⟨h1, t, h2⟩; exact ⟨t, h1.symm, h2⟩
      · rintro ⟨t, h1, h2⟩; exact ⟨h1.symm, t, h2⟩

theorem listHas_iff (pat : List Char) :
    ∀ l, listHas pat l = true ↔ ∃ l₁ l₂, l = l₁ ++ pat ++ l₂ := by
  intro l
  induction l with
  | nil =>
    simp only [listHas, leadsWith_iff]
    constructor
    · rintro ⟨t, h⟩
      rcases List.append_eq_nil.1 h.symm with ⟨h1, h2⟩
      exact ⟨[], [], by simp [h1]⟩
    · rintro ⟨l₁, l₂, h⟩
      rcases List.append_eq_nil.1 (List.append_eq_nil.1 h.symm).1 with ⟨h1, h2⟩
      exact ⟨[], by simp [h2]⟩

  | cons c cs ih =>
    simp only [listHas, Bool.or_eq_true, leadsWith_iff, ih]
    constructor
    · rintro (⟨t, h⟩ | ⟨l₁, l₂, h⟩)
      · exact ⟨[], t, by simp [h]⟩
      · exact ⟨c :: l₁, l₂, by simp [h]⟩
    · rintro ⟨l₁, l₂, h⟩
      cases l₁ with
      | nil => exact .inl ⟨l₂, by simpa using h⟩
      | cons x xs =>
        right
        rw [List.cons_append, List.cons_append, List.cons.injEq] at h
        exact ⟨xs, l₂, by simpa using h.2⟩

theorem strIncludes_iff (s pat : String) :
    strIncludes s pat = true ↔ ∃ l₁ l₂, s.toList = l₁ ++ pat.toList ++ l₂ :=
  listHas_iff pat.toList s.toList

theorem strIncludes_self (s : String) : strIncludes s s = true :=
  (strIncludes_iff s s).2 ⟨[], [], by simp⟩

/-! ### Product set insertion -/

theorem mem_addUrl {l : List String} {u x : String} :
    x ∈ addUrl l u ↔ x ∈ l ∨ x = u := by
  unfold addUrl
  split
  · next h =>
    constructor
    · exact .inl
    · rintro (hx | rfl)
      · exact hx
      · exact h
  · simp

theorem mem_foldl_addUrl {l₂ : List String} :
    ∀ {l₁ : List String} {x : String}, x ∈ l₂.foldl addUrl l₁ ↔ x ∈ l₁ ∨ x ∈ l₂ := by
  induction l₂ with
  | nil => intro l₁ x; simp
  | cons u us ih =>
    intro l₁ x
    rw [List.foldl_cons, ih, mem_addUrl]
    simp [or_assoc]

theorem mem_foldl_addUrl_left {l₁ l₂ : List String} {x : String} (h : x ∈ l₁) :
    x ∈ l₂.foldl addUrl l₁ :=
  mem_foldl_addUrl.2 (.inl h)

/-! ### The retry loop -/

theorem fetchAttempts_rateLimited (fetch : Fetcher) (url : String)
    (h : ∀ n, fetch url n = .rateLimited) :
    ∀ k a, fetchAttempts fetch url a k = ⟨none, k, k⟩ := by
  intro k
  induction k with
  | zero => intro a; rfl
  | succ k ih =>
    intro a
    simp only [fetchAttempts, h a, ih (a + 1)]

theorem fetchAttempts_failure (fetch : Fetcher) (url : String) (a k : Nat)
    (h : fetch url a = .failure) :
    fetchAttempts fetch url a (k + 1) = ⟨none, 1, 0⟩ := by
  simp only [fetchAttempts, h]

theorem fetchAttempts_retry_step (fetch : Fetcher) (url : String) (a k : Nat)
    (h : fetch url a = .rateLimited) :
    fetchAttempts fetch url a (k + 1) =
      ⟨(fetchAttempts fetch url (a + 1) k).links,
       (fetchAttempts fetch url (a + 1) k).attempts + 1,
       (fetchAttempts fetch url (a + 1) k).waits + 1⟩ := by
  simp only [fetchAttempts, h]

/-! ### The child loop as a standalone recursion -/

theorem foldl_crawlStep_none (f : String → List String → Nat → Option CrawlResult) (d : Nat) :
    ∀ us : List String, us.foldl (crawlStep f d) none = none := by
  intro us
  induction us with
  | nil => rfl
  | cons u us ih => exact ih

theorem foldl_crawlStep_eq (cfg : Config) (resolve : Resolver) (fetch : Fetcher)
    (baseDomain : String) (fuel d : Nat) :
    ∀ (us : List String) (s : CrawlResult),
      us.foldl (crawlStep (fun u v dd => crawlUrlF cfg resolve fetch baseDomain fuel u v dd) d)
          (some s)
        = crawlListF cfg resolve fetch baseDomain fuel d us s := by
  intro us
  induction us with
  | nil => intro s; rfl
  | cons u us ih =>
    intro s
    rw [List.foldl_cons]
    show us.foldl _ (crawlStep _ d (some s) u) = _
    rw [crawlListF]
    cases h : crawlUrlF cfg resolve fetch baseDomain fuel u s.visited d with
    | none =>
      have hstep : crawlStep
          (fun u v dd => crawlUrlF cfg resolve fetch baseDomain fuel u v dd) d (some s) u
          = none := by
        simp only [crawlStep, h]
      rw [hstep]
      exact foldl_crawlStep_none _ _ us
    | some r =>
      have hstep : crawlStep
          (fun u v dd => crawlUrlF cfg resolve fetch baseDomain fuel u v dd) d (some s) u
          = some ⟨r.products.foldl addUrl s.products, r.visited, s.fetched ++ r.fetched⟩ := by
        simp only [crawlStep, h]
      rw [hstep]
      exact ih _

/-- One-step unfolding of `crawlUrlF` at positive fuel, with the child loop
expressed through `crawlListF`. -/
theorem crawlUrlF_succ (cfg : Config) (resolve : Resolver) (fetch : Fetcher)
    (baseDomain : String) (fuel : Nat) (url : String) (visited : List String) (depth : Nat) :
    crawlUrlF cfg resolve fetch baseDomain (fuel + 1) url visited depth
      = if depth > cfg.maxDepth ∨ url ∈ visited then some ⟨[], visited, []⟩
        else
          match (fetchAttempts fetch url 0 cfg.retryLimit).links with
          | none => some ⟨[], url :: visited, [url]⟩
          | some links =>
            match crawlListF cfg resolve fetch baseDomain fuel (depth + 1)
                (collectLinks resolve baseDomain (url :: visited) links).2
                ⟨(collectLinks resolve baseDomain (url :: visited) links).1,
                  url :: visited, []⟩ with
            | none => none
            | some s => some ⟨s.products, s.visited, url :: s.fetched⟩ := by
  rw [crawlUrlF]
  split
  · rfl
  · cases h : (fetchAttempts fetch url 0 cfg.retryLimit).links with
    | none => simp only [h]
    | some links => simp only [h, foldl_crawlStep_eq]

/-! ### Termination: the depth bound makes the fuel `cfg.maxDepth + 2` always
sufficient, on every link graph (cyclic ones included). -/

theorem crawlUrlF_isSome (cfg : Config) (resolve : Resolver) (fetch : Fetcher)
    (baseDomain : String) :
    ∀ (fuel : Nat) (url : String) (visited : List String) (depth : Nat),
      cfg.maxDepth + 1 - depth < fuel →
      (crawlUrlF cfg resolve fetch baseDomain fuel url visited depth).isSome = true := by
  intro fuel
  induction fuel with
  | zero => intro url visited depth h; omega
  | succ fuel ih =>
    intro url visited depth h
    rw [crawlUrlF_succ]
    split
    · rfl
    · next hguard =>
      have hdep : ¬ depth > cfg.maxDepth := fun hgt => hguard (.inl hgt)
      split
      · rfl
      · next links hlinks =>
        have hlist : ∀ (us : List String) (s : CrawlResult),
            (crawlListF cfg resolve fetch baseDomain fuel (depth + 1) us s).isSome = true := by
          intro us
          induction us with
          | nil => intro s; rfl
          | cons u us ihus =>
            intro s
            rw [crawlListF]
            cases hc : crawlUrlF cfg resolve fetch baseDomain fuel u s.visited (depth + 1) with
            | none =>
              have := ih u s.visited (depth + 1) (by omega)
              rw [hc] at this
              exact absurd this (by simp)
            | some r => exact ihus _
        split
        · next hcl =>
          have := hlist (collectLinks resolve baseDomain (url :: visited) links).2
            ⟨(collectLinks resolve baseDomain (url :: visited) links).1, url :: visited, []⟩
          rw [hcl] at this
          exact absurd this (by simp)
        · rfl

/-- With fuel `cfg.maxDepth + 2` the fuel-indexed crawl never runs out, and
`crawlUrl` is its value. -/
theorem crawlUrlF_eq_crawlUrl (cfg : Config) (resolve : Resolver) (fetch : Fetcher)
    (baseDomain url : String) (visited : List String) (depth : Nat) :
    crawlUrlF cfg resolve fetch baseDomain (cfg.maxDepth + 2) url visited depth
      = some (crawlUrl cfg resolve fetch baseDomain url visited depth) := by
  have h := crawlUrlF_isSome cfg resolve fetch baseDomain (cfg.maxDepth + 2) url visited depth
    (by omega)
  unfold crawlUrl
  cases hc : crawlUrlF cfg resolve fetch baseDomain (cfg.maxDepth + 2) url visited depth with
  | none => rw [hc] at h; exact absurd h (by simp)
  | some r => rfl

/-! ### The link-collection loop -/

theorem collectStep_fst (resolve : Resolver) (baseDomain : String) (visited : List String)
    (acc : List String × List String) (link x : String)
    (h : x ∈ (collectStep resolve baseDomain visited acc link).1) :
    x ∈ acc.1 ∨ (resolveValid resolve baseDomain link = some x ∧ isProductUrl x = true) := by
  by_cases hv : isValidUrl resolve link baseDomain = true
  · cases hres : resolve link baseDomain with
    | none => rw [isValidUrl, hres] at hv; exact absurd hv (by simp)
    | some parsed =>
      have hinc : strIncludes parsed.hostname baseDomain = true := by
        rw [isValidUrl, hres] at hv; exact hv
      by_cases hp : isProductUrl parsed.href = true
      · have hc : (collectStep resolve baseDomain visited acc link).1
            = addUrl acc.1 parsed.href := by
          simp [collectStep, hv, hres, hp]
        rw [hc] at h
        rcases mem_addUrl.1 h with h1 | rfl
        · exact .inl h1
        · refine .inr ⟨?_, hp⟩
          simp [resolveValid, hres, hinc]
      · have hc : (collectStep resolve baseDomain visited acc link).1 = acc.1 := by
          by_cases hm : parsed.href ∈ visited
          · simp [collectStep, hv, hres, hp, hm]
          · simp [collectStep, hv, hres, hp, hm]
        rw [hc] at h
        exact .inl h
  · have hc : collectStep resolve baseDomain visited acc link = acc := by
      simp [collectStep, hv]
    rw [hc] at h
    exact .inl h

theorem collectStep_snd (resolve : Resolver) (baseDomain : String) (visited : List String)
    (acc : List String × List String) (link x : String)
    (h : x ∈ (collectStep resolve baseDomain visited acc link).2) :
    x ∈ acc.2 ∨ resolveValid resolve baseDomain link = some x := by
  by_cases hv : isValidUrl resolve link baseDomain = true
  · cases hres : resolve link baseDomain with
    | none => rw [isValidUrl, hres] at hv; exact absurd hv (by simp)
    | some parsed =>
      have hinc : strIncludes parsed.hostname baseDomain = true := by
        rw [isValidUrl, hres] at hv; exact hv
      by_cases hp : isProductUrl parsed.href = true
      · have hc : (collectStep resolve baseDomain visited acc link).2 = acc.2 := by
          simp [collectStep, hv, hres, hp]
        rw [hc] at h
        exact .inl h
      · by_cases hm : parsed.href ∈ visited
        · have hc : collectStep resolve baseDomain visited acc link = acc := by
            simp [collectStep, hv, hres, hp, hm]
          rw [hc] at h
          exact .inl h
        · have hc : (collectStep resolve baseDomain visited acc link).2
              = acc.2 ++ [parsed.href] := by
            simp [collectStep, hv, hres, hp, hm]
          rw [hc] at h
          rcases List.mem_append.1 h with h1 | h1
          · exact .inl h1
          · right
            rw [List.mem_singleton] at h1
            subst h1
            simp [resolveValid, hres, hinc]
  · have hc : collectStep resolve baseDomain visited acc link = acc := by
      simp [collectStep, hv]
    rw [hc] at h
    exact .inl h

theorem collectStep_fst_mono (resolve : Resolver) (baseDomain : String)
    (visited : List String) (acc : List String × List String) (link x : String)
    (h : x ∈ acc.1) : x ∈ (collectStep resolve baseDomain visited acc link).1 := by
  by_cases hv : isValidUrl resolve link baseDomain = true
  · cases hres : resolve link baseDomain with
    | none =>
      have hc : collectStep resolve baseDomain visited acc link = acc := by
        simp [collectStep, hv, hres]
      rw [hc]
      exact h
    | some parsed =>
      by_cases hp : isProductUrl parsed.href = true
      · have hc : (collectStep resolve baseDomain visited acc link).1
            = addUrl acc.1 parsed.href := by
          simp [collectStep, hv, hres, hp]
        rw [hc]
        exact mem_addUrl.2 (.inl h)
      · have hc : (collectStep resolve baseDomain visited acc link).1 = acc.1 := by
          by_cases hm : parsed.href ∈ visited
          · simp [collectStep, hv, hres, hp, hm]
          · simp [collectStep, hv, hres, hp, hm]
        rw [hc]
        exact h
  · have hc : collectStep resolve baseDomain visited acc link = acc := by
      simp [collectStep, hv]
    rw [hc]
    exact h

theorem mem_validHrefs_of_resolveValid {resolve : Resolver} {baseDomain link x : String}
    {links : List String} (hmem : link ∈ links)
    (h : resolveValid resolve baseDomain link = some x) :
    x ∈ validHrefs resolve baseDomain links :=
  List.mem_filterMap.2 ⟨link, hmem, h⟩

theorem collect_fold_fst (resolve : Resolver) (baseDomain : String) (visited : List String) :
    ∀ (links : List String) (acc : List String × List String) (x : String),
      x ∈ (links.foldl (collectStep resolve baseDomain visited) acc).1 →
      x ∈ acc.1 ∨ (x ∈ validHrefs resolve baseDomain links ∧ isProductUrl x = true) := by
  intro links
  induction links with
  | nil => intro acc x h; exact .inl h
  | cons link links ih =>
    intro acc x h
    rw [List.foldl_cons] at h
    rcases ih _ x h with h1 | ⟨h2, h3⟩
    · rcases collectStep_fst resolve baseDomain visited acc link x h1 with h4 | ⟨h5, h6⟩
      · exact .inl h4
      · exact .inr ⟨mem_validHrefs_of_resolveValid (List.mem_cons_self link links) h5, h6⟩
    · refine .inr ⟨?_, h3⟩
      rcases List.mem_filterMap.1 h2 with ⟨a, ha, hrv⟩
      exact List.mem_filterMap.2 ⟨a, List.mem_cons_of_mem link ha, hrv⟩

theorem collect_fold_snd (resolve : Resolver) (baseDomain : String) (visited : List String) :
    ∀ (links : List String) (acc : List String × List String) (x : String),
      x ∈ (links.foldl (collectStep resolve baseDomain visited) acc).2 →
      x ∈ acc.2 ∨ x ∈ validHrefs resolve baseDomain links := by
  intro links
  induction links with
  | nil => intro acc x h; exact .inl h
  | cons link links ih =>
    intro acc x h
    rw [List.foldl_cons] at h
    rcases ih _ x h with h1 | h2
    · rcases collectStep_snd resolve baseDomain visited acc link x h1 with h3 | h4
      · exact .inl h3
      · exact .inr (mem_validHrefs_of_resolveValid (List.mem_cons_self link links) h4)
    · right
      rcases List.mem_filterMap.1 h2 with ⟨a, ha, hrv⟩
      exact List.mem_filterMap.2 ⟨a, List.mem_cons_of_mem link ha, hrv⟩

theorem collect_fold_fst_mono (resolve : Resolver) (baseDomain : String)
    (visited : List String) :
    ∀ (links : List String) (acc : List String × List String) (x : String),
      x ∈ acc.1 → x ∈ (links.foldl (collectStep resolve baseDomain visited) acc).1 := by
  intro links
  induction links with
  | nil => intro acc x h; exact h
  | cons link links ih =>
    intro acc x h
    rw [List.foldl_cons]
    exact ih _ x (collectStep_fst_mono resolve baseDomain visited acc link x h)

theorem collect_mem_product (resolve : Resolver) (baseDomain : String) (visited : List String) :
    ∀ (links : List String) (acc : List String × List String) (link : String) (parsed : Url),
      link ∈ links → resolve link baseDomain = some parsed →
      strIncludes parsed.hostname baseDomain = true → isProductUrl parsed.href = true →
      parsed.href ∈ (links.foldl (collectStep resolve baseDomain visited) acc).1 := by
  intro links
  induction links with
  | nil => intro acc link parsed hmem; exact absurd hmem (by simp)
  | cons l ls ih =>
    intro acc link parsed hmem hres hinc hprod
    rw [List.foldl_cons]
    rcases List.mem_cons.1 hmem with rfl | hmem2
    · apply collect_fold_fst_mono
      have hv : isValidUrl resolve link baseDomain = true := by
        rw [isValidUrl, hres]; exact hinc
      have hstep : (collectStep resolve baseDomain visited acc link).1
          = addUrl acc.1 parsed.href := by
        simp [collectStep, hv, hres, hprod]
      rw [hstep]
      exact mem_addUrl.2 (.inr rfl)
    · exact ih _ link parsed hmem2 hres hinc hprod

/-! ### The visited set grows monotonically and each URL is fetched at most
once (it is marked visited before its fetch is issued and never removed). -/

theorem crawlUrlF_inv (cfg : Config) (resolve : Resolver) (fetch : Fetcher)
    (baseDomain : String) :
    ∀ fuel : Nat,
      (∀ (url : String) (visited : List String) (depth : Nat) (r : CrawlResult),
        crawlUrlF cfg resolve fetch baseDomain fuel url visited depth = some r →
        (∀ x, x ∈ visited → x ∈ r.visited) ∧ r.fetched.Nodup ∧
          (∀ u, u ∈ r.fetched → u ∈ r.visited ∧ u ∉ visited)) ∧
      (∀ (d : Nat) (us : List String) (s r : CrawlResult),
        crawlListF cfg resolve fetch baseDomain fuel d us s = some r →
        (∀ x, x ∈ s.visited → x ∈ r.visited) ∧
          ∃ nf, r.fetched = s.fetched ++ nf ∧ nf.Nodup ∧
            (∀ u, u ∈ nf → u ∈ r.visited ∧ u ∉ s.visited)) := by
  intro fuel
  induction fuel with
  | zero =>
    constructor
    · intro url visited depth r h
      rw [crawlUrlF] at h
      exact Option.noConfusion h
    · intro d us s r h
      cases us with
      | nil =>
        rw [crawlListF] at h
        injection h with h
        subst h
        exact ⟨fun x hx => hx, [], by simp, by simp, by simp⟩
      | cons u us =>
        rw [crawlListF, crawlUrlF] at h
        exact Option.noConfusion h
  | succ fuel ih =>
    obtain ⟨ihU, ihL⟩ := ih
    have PA : ∀ (url : String) (visited : List String) (depth : Nat) (r : CrawlResult),
        crawlUrlF cfg resolve fetch baseDomain (fuel + 1) url visited depth = some r →
        (∀ x, x ∈ visited → x ∈ r.visited) ∧ r.fetched.Nodup ∧
          (∀ u, u ∈ r.fetched → u ∈ r.visited ∧ u ∉ visited) := by
      intro url visited depth r h
      rw [crawlUrlF_succ] at h
      split at h
      · injection h with h
        subst h
        exact ⟨fun x hx => hx, by simp, by simp⟩
      · next hguard =>
        have hnv : url ∉ visited := fun hmem => hguard (.inr hmem)
        split at h
        · injection h with h
          subst h
          refine ⟨fun x hx => List.mem_cons_of_mem _ hx, by simp, ?_⟩
          intro u hu
          rw [List.mem_singleton] at hu
          subst hu
          exact ⟨List.mem_cons_self _ _, hnv⟩
        · next links hlinks =>
          split at h
          · exact Option.noConfusion h
          · next s hcl =>
            injection h with h
            subst h
            obtain ⟨hmono, nf, hnf, hnodup, hmem⟩ := ihL (depth + 1) _ _ s hcl
            have hnf' : s.fetched = nf := by simpa using hnf
            have hmono' : ∀ x, x ∈ url :: visited → x ∈ s.visited := hmono
            refine ⟨?_, ?_, ?_⟩
            · intro x hx
              exact hmono' x (List.mem_cons_of_mem _ hx)
            · rw [List.nodup_cons]
              constructor
              · intro hin
                rw [hnf'] at hin
                exact (hmem url hin).2 (List.mem_cons_self _ _)
              · rw [hnf']
                exact hnodup
            · intro u hu
              rcases List.mem_cons.1 hu with rfl | hu2
              · exact ⟨hmono' u (List.mem_cons_self _ _), hnv⟩
              · rw [hnf'] at hu2
                refine ⟨(hmem u hu2).1, fun hv => (hmem u hu2).2 (List.mem_cons_of_mem _ hv)⟩
    have PB : ∀ (d : Nat) (us : List String) (s r : CrawlResult),
        crawlListF cfg resolve fetch baseDomain (fuel + 1) d us s = some r →
        (∀ x, x ∈ s.visited → x ∈ r.visited) ∧
          ∃ nf, r.fetched = s.fetched ++ nf ∧ nf.Nodup ∧
            (∀ u, u ∈ nf → u ∈ r.visited ∧ u ∉ s.visited) := by
      intro d us
      induction us with
      | nil =>
        intro s r h
        rw [crawlListF] at h
        injection h with h
        subst h
        exact ⟨fun x hx => hx, [], by simp, by simp, by simp⟩
      | cons u us ihus =>
        intro s r h
        rw [crawlListF] at h
        split at h
        · exact Option.noConfusion h
        · next r1 hc =>
          obtain ⟨m1, n1, mem1⟩ := PA u s.visited d r1 hc
          obtain ⟨m2, nf2, hn2, nodup2, mem2⟩ := ihus _ r h
          have hn2' : r.fetched = s.fetched ++ r1.fetched ++ nf2 := hn2
          have m2' : ∀ x, x ∈ r1.visited → x ∈ r.visited := m2
          have mem2' : ∀ x, x ∈ nf2 → x ∈ r.visited ∧ x ∉ r1.visited := mem2
          refine ⟨fun x hx => m2' x (m1 x hx), r1.fetched ++ nf2, ?_, ?_, ?_⟩
          · rw [hn2', List.append_assoc]
          · rw [List.nodup_append]
            refine ⟨n1, nodup2, ?_⟩
            intro a ha hin
            exact (mem2' a hin).2 (mem1 a ha).1
          · intro x hx
            rcases List.mem_append.1 hx with h1 | h1
            · exact ⟨m2' x (mem1 x h1).1, (mem1 x h1).2⟩
            · exact ⟨(mem2' x h1).1, fun hv => (mem2' x h1).2 (m1 x hv)⟩
    exact ⟨PA, PB⟩

/-- The child loop only ever adds product URLs to the accumulator. -/
theorem crawlListF_products_mono (cfg : Config) (resolve : Resolver) (fetch : Fetcher)
    (baseDomain : String) (fuel d : Nat) :
    ∀ (us : List String) (s r : CrawlResult),
      crawlListF cfg resolve fetch baseDomain fuel d us s = some r →
      ∀ x, x ∈ s.products → x ∈ r.products := by
  intro us
  induction us with
  | nil =>
    intro s r h
    rw [crawlListF] at h
    injection h with h
    subst h
    exact fun x hx => hx
  | cons u us ihus =>
    intro s r h
    rw [crawlListF] at h
    split at h
    · exact Option.noConfusion h
    · next r1 hc =>
      intro x hx
      exact ihus _ r h x (mem_foldl_addUrl_left hx)

/-! ### Reachability soundness: every reported product URL lies on a link
path from the crawl root of length at most `maxDepth + 1`. -/

theorem mem_reach_one {g : String → List String} {u x : String} (h : x ∈ g u) :
    x ∈ reachFrontier g 1 u := by
  rw [reachFrontier]
  exact List.mem_flatMap.2 ⟨x, h, by rw [reachFrontier]; exact List.mem_singleton.2 rfl⟩

theorem mem_reach_step {g : String → List String} {u w x : String} {k : Nat}
    (hw : w ∈ g u) (hx : x ∈ reachFrontier g k w) :
    x ∈ reachFrontier g (k + 1) u := by
  rw [reachFrontier]
  exact List.mem_flatMap.2 ⟨w, hw, hx⟩

theorem crawlUrlF_sound (cfg : Config) (resolve : Resolver) (fetch : Fetcher)
    (baseDomain : String) :
    ∀ fuel : Nat,
      (∀ (url : String) (visited : List String) (depth : Nat) (r : CrawlResult),
        crawlUrlF cfg resolve fetch baseDomain fuel url visited depth = some r →
        ∀ u, u ∈ r.products → ∃ k, 1 ≤ k ∧ k + depth ≤ cfg.maxDepth + 1 ∧
          u ∈ reachFrontier (pageLinks cfg resolve fetch baseDomain) k url) ∧
      (∀ (d : Nat) (us : List String) (s r : CrawlResult),
        crawlListF cfg resolve fetch baseDomain fuel d us s = some r →
        ∀ u, u ∈ r.products → u ∈ s.products ∨ ∃ w, w ∈ us ∧ ∃ k, 1 ≤ k ∧
          k + d ≤ cfg.maxDepth + 1 ∧
          u ∈ reachFrontier (pageLinks cfg resolve fetch baseDomain) k w) := by
  intro fuel
  induction fuel with
  | zero =>
    constructor
    · intro url visited depth r h
      rw [crawlUrlF] at h
      exact Option.noConfusion h
    · intro d us s r h
      cases us with
      | nil =>
        rw [crawlListF] at h
        injection h with h
        subst h
        exact fun u hu => .inl hu
      | cons u us =>
        rw [crawlListF, crawlUrlF] at h
        exact Option.noConfusion h
  | succ fuel ih =>
    obtain ⟨ihU, ihL⟩ := ih
    have PA : ∀ (url : String) (visited : List String) (depth : Nat) (r : CrawlResult),
        crawlUrlF cfg resolve fetch baseDomain (fuel + 1) url visited depth = some r →
        ∀ u, u ∈ r.products → ∃ k, 1 ≤ k ∧ k + depth ≤ cfg.maxDepth + 1 ∧
          u ∈ reachFrontier (pageLinks cfg resolve fetch baseDomain) k url := by
      intro url visited depth r h
      rw [crawlUrlF_succ] at h
      split at h
      · injection h with h
        subst h
        intro u hu
        exact absurd hu (by simp)
      · next hguard =>
        have hdep : depth ≤ cfg.maxDepth := by
          by_contra hgt
          exact hguard (.inl (by omega))
        split at h
        · injection h with h
          subst h
          intro u hu
          exact absurd hu (by simp)
        · next links hlinks =>
          split at h
          · exact Option.noConfusion h
          · next s hcl =>
            injection h with h
            subst h
            intro u hu
            have hg : pageLinks cfg resolve fetch baseDomain url
                = validHrefs resolve baseDomain links := by
              rw [pageLinks, hlinks]
            rcases ihL (depth + 1) _ _ s hcl u hu with h1 | ⟨w, hw, k, hk1, hk2, hmem⟩
            · have h2 : u ∈ (collectLinks resolve baseDomain (url :: visited) links).1 := h1
              rcases collect_fold_fst resolve baseDomain (url :: visited) links ([], []) u h2
                with h3 | ⟨h4, h5⟩
              · exact absurd h3 (by simp)
              · refine ⟨1, le_refl 1, by omega, ?_⟩
                have h5 : u ∈ pageLinks cfg resolve fetch baseDomain url := by
                  rw [hg]; exact h4
                exact mem_reach_one h5
            · have h2 : w ∈ (collectLinks resolve baseDomain (url :: visited) links).2 := hw
              rcases collect_fold_snd resolve baseDomain (url :: visited) links ([], []) w h2
                with h3 | h4
              · exact absurd h3 (by simp)
              · refine ⟨k + 1, by omega, by omega, ?_⟩
                have h5 : w ∈ pageLinks cfg resolve fetch baseDomain url := by
                  rw [hg]; exact h4
                exact mem_reach_step h5 hmem
    have PB : ∀ (d : Nat) (us : List String) (s r : CrawlResult),
        crawlListF cfg resolve fetch baseDomain (fuel + 1) d us s = some r →
        ∀ u, u ∈ r.products → u ∈ s.products ∨ ∃ w, w ∈ us ∧ ∃ k, 1 ≤ k ∧
          k + d ≤ cfg.maxDepth + 1 ∧
          u ∈ reachFrontier (pageLinks cfg resolve fetch baseDomain) k w := by
      intro d us
      induction us with
      | nil =>
        intro s r h
        rw [crawlListF] at h
        injection h with h
        subst h
        exact fun u hu => .inl hu
      | cons u0 us ihus =>
        intro s r h
        rw [crawlListF] at h
        split at h
        · exact Option.noConfusion h
        · next r1 hc =>
          intro u hu
          rcases ihus _ r h u hu with h1 | ⟨w, hw, hrest⟩
          · have h2 : u ∈ r1.products.foldl addUrl s.products := h1
            rcases mem_foldl_addUrl.1 h2 with h3 | h3
            · exact .inl h3
            · rcases PA u0 s.visited d r1 hc u h3 with ⟨k, hk1, hk2, hmem⟩
              exact .inr ⟨u0, List.mem_cons_self _ _, k, hk1, hk2, hmem⟩
          · exact .inr ⟨w, List.mem_cons_of_mem _ hw, hrest⟩
    exact ⟨PA, PB⟩

/-! ### The batched domain orchestration -/

theorem crawlDomainsAux_map_domain (cfg : Config) (resolve : Resolver) (fetch : Fetcher) :
    ∀ (n p : Nat) (ds : List String), ds.length ≤ n →
      (crawlDomainsAux cfg resolve fetch p ds).map DomainResult.domain = ds := by
  intro n
  induction n with
  | zero =>
    intro p ds h
    cases ds with
    | nil => rw [crawlDomainsAux]; rfl
    | cons d ds => exact absurd h (by simp)
  | succ n ih =>
    intro p ds h
    cases ds with
    | nil => rw [crawlDomainsAux]; rfl
    | cons d ds =>
      rw [crawlDomainsAux, List.map_append, List.map_map]
      have h1 : ((d :: ds).take (p + 1)).map
          (DomainResult.domain ∘ crawlDomain cfg resolve fetch) = (d :: ds).take (p + 1) := by
        have h2 : DomainResult.domain ∘ crawlDomain cfg resolve fetch = id := rfl
        rw [h2, List.map_id]
      have h3 : ((d :: ds).drop (p + 1)).length ≤ n := by
        rw [List.length_drop]
        simp only [List.length_cons] at h ⊢
        omega
      rw [h1, ih p _ h3, List.take_append_drop]

/-! ### Concrete sites used to test the claims on explicit inputs -/

/-- Resolver for the concrete sites: every link resolves to host `d` with
the link string itself as the absolute href. -/
def resolveD : Resolver := fun link _ => some ⟨"d", link, link⟩

/-- A chain `r → a1 → a2 → a3 → /p/1`: the product sits at depth 4 =
`MAX_DEPTH + 1`. -/
def chainSite : String → List String
  | "r" => ["a1"]
  | "a1" => ["a2"]
  | "a2" => ["a3"]
  | "a3" => ["/p/1"]
  | _ => []

def fetchChain : Fetcher := fun u _ => .success (chainSite u)

/-- `r → [a, rr]`, `a → b → rr`, `rr → q → /p/9`: the page `rr` is first
visited at depth 3 through `a`, so its subtree is cut, and the direct
depth-1 route `r → rr` finds it already visited; `/p/9` has shortest depth
3 = `MAX_DEPTH` yet is never found. -/
def shadowSite : String → List String
  | "r" => ["a", "rr"]
  | "a" => ["b"]
  | "b" => ["rr"]
  | "rr" => ["q"]
  | "q" => ["/p/9"]
  | _ => []

def fetchShadow : Fetcher := fun u _ => .success (shadowSite u)

/-- The spec §8 scenario: root links a product and a non-product page that
links a second product. -/
def scenarioSite : String → List String
  | "d" => ["/product/42", "/about"]
  | "/about" => ["/product/99"]
  | _ => []

def fetchScenario : Fetcher := fun u _ => .success (scenarioSite u)

/-- The §8 scenario runs with `maxDepth = 2`. -/
def scenarioConfig : Config := ⟨2, RETRY_LIMIT, PARALLEL_REQUESTS⟩

/-- A transport that rate-limits every attempt. -/
def fetchRL : Fetcher := fun _ _ => .rateLimited

/-- A transport that fails terminally on every attempt. -/
def fetchFail : Fetcher := fun _ _ => .failure

/-- A cyclic site: the root links itself. -/
def cyclicSite : String → List String
  | "r" => ["r", "/x"]
  | "/x" => ["r"]
  | _ => []

def fetchCyclic : Fetcher := fun u _ => .success (cyclicSite u)

/-- A URL whose query string, not its path, contains a product pattern. -/
def queryTrapUrl : Url := ⟨"d", "/about", "h://d/about?page=/item/2"⟩

/-! ### The claims -/

/-- C2: for every link string and base location, the link is accepted as
valid iff it resolves against the base location into an absolute URL whose
host equals, or contains as a substring, the target domain's host;
resolution failure yields `false` rather than an error to the caller. -/
theorem c2_valid_iff_host_contains (resolve : Resolver) (url baseDomain : String) :
    isValidUrl resolve url baseDomain = true ↔
      ∃ parsed, resolve url baseDomain = some parsed ∧
        (parsed.hostname = baseDomain ∨ strIncludes parsed.hostname baseDomain = true) := by
  cases hres : resolve url baseDomain with
  | none =>
    rw [isValidUrl, hres]
    simp
  | some parsed =>
    rw [isValidUrl, hres]
    show strIncludes parsed.hostname baseDomain = true ↔ _
    constructor
    · intro h
      exact ⟨parsed, rfl, .inr h⟩
    · rintro ⟨p, hp, hor⟩
      injection hp with hp
      subst hp
      rcases hor with h | h
      · rw [h]
        exact strIncludes_self baseDomain
      · exact h

/-- C6 counterexample: the code classifies by testing the patterns against
the whole URL string, not the URL's path: a URL whose query string contains
`/item/` is classified as a product although its path matches no pattern. -/
theorem c6_counterexample :
    isProductUrl queryTrapUrl.href = true ∧ classifyByPath queryTrapUrl = false := by
  decide

/-- C6 (amended): `isProductUrl` returns true iff the URL's full string
contains at least one configured pattern (`/product/`, `/item/`, `/p/`) as
a substring — anywhere in the string, not only in the path; the
classification is a pure function of the URL string. -/
theorem c6_amended_product_iff_substring (url : String) :
    isProductUrl url = true ↔
      ∃ pat, pat ∈ PRODUCT_PATTERNS ∧ ∃ l₁ l₂, url.toList = l₁ ++ pat.toList ++ l₂ := by
  rw [isProductUrl, List.any_eq_true]
  constructor
  · rintro ⟨pat, hmem, hinc⟩
    exact ⟨pat, hmem, (strIncludes_iff url pat).1 hinc⟩
  · rintro ⟨pat, hmem, h⟩
    exact ⟨pat, hmem, (strIncludes_iff url pat).2 h⟩

/-- C8: in the §8 scenario site (root links `/product/42` and `/about`,
which links `/product/99`) crawled with `maxDepth = 2`, the result contains
the absolute URLs of both products. -/
theorem c8_scenario :
    "/product/42" ∈ (crawlDomain scenarioConfig resolveD fetchScenario "d").productUrls ∧
    "/product/99" ∈ (crawlDomain scenarioConfig resolveD fetchScenario "d").productUrls := by
  decide

/-- C3: on every link graph (finite or cyclic) the crawl terminates: the
fuel-indexed recursion completes within any fuel exceeding the remaining
depth allowance, and `crawlUrl` is its value at fuel `maxDepth + 2`. -/
theorem c3_termination (cfg : Config) (resolve : Resolver) (fetch : Fetcher)
    (baseDomain url : String) (visited : List String) (depth fuel : Nat)
    (h : cfg.maxDepth + 1 - depth < fuel) :
    (crawlUrlF cfg resolve fetch baseDomain fuel url visited depth).isSome = true ∧
    crawlUrlF cfg resolve fetch baseDomain (cfg.maxDepth + 2) url visited depth
      = some (crawlUrl cfg resolve fetch baseDomain url visited depth) :=
  ⟨crawlUrlF_isSome cfg resolve fetch baseDomain fuel url visited depth h,
   crawlUrlF_eq_crawlUrl cfg resolve fetch baseDomain url visited depth⟩

/-- C3 witness: the crawl of a cyclic site (the root links itself)
terminates. -/
theorem c3_termination_witness :
    defaultConfig.maxDepth + 1 - 0 < 5 ∧
    (crawlUrlF defaultConfig resolveD fetchCyclic "d" 5 "r" [] 0).isSome = true :=
  ⟨by decide,
   (c3_termination defaultConfig resolveD fetchCyclic "d" "r" [] 0 5 (by decide)).1⟩

/-- C4: a URL rate-limited on every attempt exhausts the retry loop with
exactly `retryLimit` fetch attempts and `retryLimit` cooldown waits; each
rate-limited attempt re-enters the loop after one wait with the counter
incremented; the crawl of the URL then returns an empty product set to its
caller (marking the URL visited) without any error. -/
theorem c4_rate_limited_retries (cfg : Config) (fetch : Fetcher) (url : String)
    (h : ∀ n, fetch url n = FetchOutcome.rateLimited) :
    fetchAttempts fetch url 0 cfg.retryLimit = ⟨none, cfg.retryLimit, cfg.retryLimit⟩ ∧
    (∀ a k, fetchAttempts fetch url a (k + 1)
        = ⟨(fetchAttempts fetch url (a + 1) k).links,
           (fetchAttempts fetch url (a + 1) k).attempts + 1,
           (fetchAttempts fetch url (a + 1) k).waits + 1⟩) ∧
    (∀ (resolve : Resolver) (baseDomain : String) (visited : List String) (depth fuel : Nat),
      depth ≤ cfg.maxDepth → url ∉ visited →
      crawlUrlF cfg resolve fetch baseDomain (fuel + 1) url visited depth
        = some ⟨[], url :: visited, [url]⟩) := by
  refine ⟨fetchAttempts_rateLimited fetch url h cfg.retryLimit 0,
    fun a k => fetchAttempts_retry_step fetch url a k (h a), ?_⟩
  intro resolve baseDomain visited depth fuel hdep hnv
  rw [crawlUrlF_succ, if_neg (by push_neg; exact ⟨by omega, hnv⟩)]
  have hl : (fetchAttempts fetch url 0 cfg.retryLimit).links = none := by
    rw [fetchAttempts_rateLimited fetch url h cfg.retryLimit 0]
  rw [hl]

/-- C4 witness: with the always-rate-limited transport and the default
configuration the loop makes exactly 3 attempts and 3 waits. -/
theorem c4_rate_limited_retries_witness :
    (∀ n, fetchRL "u" n = FetchOutcome.rateLimited) ∧
    fetchAttempts fetchRL "u" 0 defaultConfig.retryLimit
      = ⟨none, defaultConfig.retryLimit, defaultConfig.retryLimit⟩ :=
  ⟨fun _ => rfl, (c4_rate_limited_retries defaultConfig fetchRL "u" (fun _ => rfl)).1⟩

/-- C5: a non-429 fetch failure is terminal for the URL with exactly one
attempt and no cooldown; the crawl of that URL returns an empty product set
(marking it visited) without an exception; a failing URL at the head of a
sibling list leaves the remaining siblings' traversal unchanged; and a
domain whose root fetch fails still yields a `DomainResult` entry with an
empty `productUrls` list. -/
theorem c5_terminal_failure (cfg : Config) (fetch : Fetcher) (url : String)
    (h : fetch url 0 = FetchOutcome.failure) (k : Nat) (hk : cfg.retryLimit = k + 1) :
    fetchAttempts fetch url 0 cfg.retryLimit = ⟨none, 1, 0⟩ ∧
    (∀ (resolve : Resolver) (baseDomain : String) (visited : List String) (depth fuel : Nat),
      depth ≤ cfg.maxDepth → url ∉ visited →
      crawlUrlF cfg resolve fetch baseDomain (fuel + 1) url visited depth
        = some ⟨[], url :: visited, [url]⟩) ∧
    (∀ (resolve : Resolver) (baseDomain : String) (us : List String) (s : CrawlResult)
        (d fuel : Nat), d ≤ cfg.maxDepth → url ∉ s.visited →
      crawlListF cfg resolve fetch baseDomain (fuel + 1) d (url :: us) s
        = crawlListF cfg resolve fetch baseDomain (fuel + 1) d us
            ⟨s.products, url :: s.visited, s.fetched ++ [url]⟩) ∧
    (∀ resolve : Resolver, crawlDomain cfg resolve fetch url = ⟨url, []⟩) := by
  have hfa : fetchAttempts fetch url 0 cfg.retryLimit = ⟨none, 1, 0⟩ := by
    rw [hk]
    exact fetchAttempts_failure fetch url 0 k h
  have hcrawl : ∀ (resolve : Resolver) (baseDomain : String) (visited : List String)
      (depth fuel : Nat), depth ≤ cfg.maxDepth → url ∉ visited →
      crawlUrlF cfg resolve fetch baseDomain (fuel + 1) url visited depth
        = some ⟨[], url :: visited, [url]⟩ := by
    intro resolve baseDomain visited depth fuel hdep hnv
    rw [crawlUrlF_succ, if_neg (by push_neg; exact ⟨by omega, hnv⟩)]
    have hl : (fetchAttempts fetch url 0 cfg.retryLimit).links = none := by
      rw [hfa]
    rw [hl]
  refine ⟨hfa, hcrawl, ?_, ?_⟩
  · intro resolve baseDomain us s d fuel hdep hnv
    rw [crawlListF, hcrawl resolve baseDomain s.visited d fuel hdep hnv]
    rfl
  · intro resolve
    have hB := hcrawl resolve url [] 0 (cfg.maxDepth + 1) (Nat.zero_le _) (by simp)
    have e : cfg.maxDepth + 1 + 1 = cfg.maxDepth + 2 := rfl
    rw [e] at hB
    rw [crawlDomain, crawlUrl, hB]
    rfl

/-- C5 witness: the always-failing transport yields one attempt, no wait,
and a `DomainResult` with empty products for the unreachable domain. -/
theorem c5_terminal_failure_witness :
    fetchFail "u" 0 = FetchOutcome.failure ∧ defaultConfig.retryLimit = 2 + 1 ∧
    crawlDomain defaultConfig resolveD fetchFail "u" = ⟨"u", []⟩ :=
  ⟨rfl, rfl, (c5_terminal_failure defaultConfig fetchFail "u" rfl 2 rfl).2.2.2 resolveD⟩

/-- C7: over one crawl invocation the visited set only grows, the sequence
of issued fetches has no duplicates, and every fetched URL was not yet
visited at entry but is visited afterwards (marked before its fetch). -/
theorem c7_visited_monotone_fetch_once (cfg : Config) (resolve : Resolver) (fetch : Fetcher)
    (baseDomain url : String) (visited : List String) (depth : Nat) :
    (∀ x, x ∈ visited →
      x ∈ (crawlUrl cfg resolve fetch baseDomain url visited depth).visited) ∧
    (crawlUrl cfg resolve fetch baseDomain url visited depth).fetched.Nodup ∧
    (∀ u, u ∈ (crawlUrl cfg resolve fetch baseDomain url visited depth).fetched →
      u ∈ (crawlUrl cfg resolve fetch baseDomain url visited depth).visited ∧ u ∉ visited) :=
  (crawlUrlF_inv cfg resolve fetch baseDomain (cfg.maxDepth + 2)).1 url visited depth _
    (crawlUrlF_eq_crawlUrl cfg resolve fetch baseDomain url visited depth)

/-- C7 witness: on the chain site with an initially visited URL, that URL
is still visited afterwards, and the fetch log is duplicate-free. -/
theorem c7_visited_monotone_fetch_once_witness :
    "v" ∈ ["v"] ∧
    "v" ∈ (crawlUrl defaultConfig resolveD fetchChain "d" "r" ["v"] 0).visited :=
  ⟨by decide,
   (c7_visited_monotone_fetch_once defaultConfig resolveD fetchChain "d" "r" ["v"] 0).1 "v"
     (by decide)⟩

/-- C10: once `crawl` has been invoked on a not-yet-visited URL within
bounds, the URL is in the visited set afterwards — also under terminal
fetch failure or retry exhaustion; and a crawl of an already-visited URL
returns immediately with an empty product set, an unchanged visited set,
and no fetch issued. -/
theorem c10_visited_persists (cfg : Config) (resolve : Resolver) (fetch : Fetcher)
    (baseDomain : String) :
    (∀ (fuel : Nat) (url : String) (visited : List String) (depth : Nat), url ∈ visited →
      crawlUrlF cfg resolve fetch baseDomain (fuel + 1) url visited depth
        = some ⟨[], visited, []⟩) ∧
    (∀ (fuel : Nat) (url : String) (visited : List String) (depth : Nat) (r : CrawlResult),
      crawlUrlF cfg resolve fetch baseDomain fuel url visited depth = some r →
      url ∉ visited → depth ≤ cfg.maxDepth → url ∈ r.visited) := by
  constructor
  · intro fuel url visited depth hmem
    rw [crawlUrlF_succ, if_pos (.inr hmem)]
  · intro fuel url visited depth r h hnv hdep
    cases fuel with
    | zero =>
      rw [crawlUrlF] at h
      exact Option.noConfusion h
    | succ fuel =>
      rw [crawlUrlF_succ] at h
      rw [if_neg (by push_neg; exact ⟨by omega, hnv⟩)] at h
      split at h
      · injection h with h
        subst h
        exact List.mem_cons_self _ _
      · next links hlinks =>
        split at h
        · exact Option.noConfusion h
        · next s hcl =>
          injection h with h
          subst h
          have hmono :=
            ((crawlUrlF_inv cfg resolve fetch baseDomain fuel).2 (depth + 1) _ _ s hcl).1
          exact hmono url (List.mem_cons_self _ _)

/-- C10 witness: re-invoking the crawl on a visited URL is an immediate
empty return with no fetch. -/
theorem c10_visited_persists_witness :
    "r" ∈ ["r"] ∧
    crawlUrlF defaultConfig resolveD fetchChain "d" 1 "r" ["r"] 0 = some ⟨[], ["r"], []⟩ :=
  ⟨by decide, (c10_visited_persists defaultConfig resolveD fetchChain "d").1 0 "r" ["r"] 0
    (by decide)⟩

/-- C9: `crawlDomains` processes the domain list in batches of size equal
to the configured parallelism limit, completing a batch before starting the
next, and returns exactly one `DomainResult` per input domain whose
`domain` field follows the input (batch-then-submission) order. -/
theorem c9_batched_orchestration (cfg : Config) (resolve : Resolver) (fetch : Fetcher)
    (domains : List String) (h : 0 < cfg.parallel) :
    crawlDomains cfg resolve fetch domains
      = (domains.take cfg.parallel).map (crawlDomain cfg resolve fetch)
        ++ crawlDomains cfg resolve fetch (domains.drop cfg.parallel) ∧
    (crawlDomains cfg resolve fetch domains).map DomainResult.domain = domains := by
  constructor
  · cases domains with
    | nil => simp [crawlDomains, crawlDomainsAux]
    | cons d ds =>
      simp only [crawlDomains]
      rw [crawlDomainsAux]
      have e : cfg.parallel - 1 + 1 = cfg.parallel := by omega
      rw [e]
  · exact crawlDomainsAux_map_domain cfg resolve fetch domains.length _ domains (le_refl _)

/-- C9 witness: a concrete run over one domain. -/
theorem c9_batched_orchestration_witness :
    0 < defaultConfig.parallel ∧
    (crawlDomains defaultConfig resolveD fetchChain ["r"]).map DomainResult.domain = ["r"] :=
  ⟨by decide,
   (c9_batched_orchestration defaultConfig resolveD fetchChain ["r"] (by decide)).2⟩

/-- C1 counterexample: both halves of the stated depth boundary fail on the
code. On the chain site, `/p/1` has shortest discovery depth
`MAX_DEPTH + 1 = 4` (it first appears in the depth-4 frontier) yet it IS in
the crawl result. On the shadow site, every fetch succeeds and `/p/9` has
shortest discovery depth `MAX_DEPTH = 3`, yet it is NOT in the crawl
result — its containing page was first reached on a longer path, so the
depth bound cut its expansion and the shorter route found it visited. -/
theorem c1_counterexample :
    ("/p/1" ∈ (crawlUrl defaultConfig resolveD fetchChain "d" "r" [] 0).products ∧
      "/p/1" ∈ reachFrontier (pageLinks defaultConfig resolveD fetchChain "d") 4 "r" ∧
      "/p/1" ∉ reachFrontier (pageLinks defaultConfig resolveD fetchChain "d") 0 "r" ∧
      "/p/1" ∉ reachFrontier (pageLinks defaultConfig resolveD fetchChain "d") 1 "r" ∧
      "/p/1" ∉ reachFrontier (pageLinks defaultConfig resolveD fetchChain "d") 2 "r" ∧
      "/p/1" ∉ reachFrontier (pageLinks defaultConfig resolveD fetchChain "d") 3 "r") ∧
    ((∀ u n, fetchShadow u n = FetchOutcome.success (shadowSite u)) ∧
      "/p/9" ∈ reachFrontier (pageLinks defaultConfig resolveD fetchShadow "d") 3 "r" ∧
      "/p/9" ∉ reachFrontier (pageLinks defaultConfig resolveD fetchShadow "d") 0 "r" ∧
      "/p/9" ∉ reachFrontier (pageLinks defaultConfig resolveD fetchShadow "d") 1 "r" ∧
      "/p/9" ∉ reachFrontier (pageLinks defaultConfig resolveD fetchShadow "d") 2 "r" ∧
      "/p/9" ∉ (crawlUrl defaultConfig resolveD fetchShadow "d" "r" [] 0).products) :=
  ⟨by decide, fun u n => rfl, by decide⟩

/-- C1 (amended): every product URL in the result is reachable from the
root in at most `maxDepth + 1` link steps (so URLs reachable only beyond
that never appear); conversely, reachability at a given depth does not in
general guarantee appearance, but a valid product link on the successfully
fetched root page always appears in the result. -/
theorem c1_amended_depth_bound (cfg : Config) (resolve : Resolver) (fetch : Fetcher)
    (baseDomain root : String) :
    (∀ u, u ∈ (crawlUrl cfg resolve fetch baseDomain root [] 0).products →
      ∃ k, 1 ≤ k ∧ k ≤ cfg.maxDepth + 1 ∧
        u ∈ reachFrontier (pageLinks cfg resolve fetch baseDomain) k root) ∧
    (∀ (links : List String) (link : String) (parsed : Url),
      (fetchAttempts fetch root 0 cfg.retryLimit).links = some links →
      link ∈ links → resolve link baseDomain = some parsed →
      strIncludes parsed.hostname baseDomain = true → isProductUrl parsed.href = true →
      parsed.href ∈ (crawlUrl cfg resolve fetch baseDomain root [] 0).products) := by
  constructor
  · intro u hu
    obtain ⟨k, hk1, hk2, hmem⟩ :=
      (crawlUrlF_sound cfg resolve fetch baseDomain (cfg.maxDepth + 2)).1 root [] 0 _
        (crawlUrlF_eq_crawlUrl cfg resolve fetch baseDomain root [] 0) u hu
    exact ⟨k, hk1, by omega, hmem⟩
  · intro links link parsed hlinks hmem hres hinc hprod
    have he := crawlUrlF_eq_crawlUrl cfg resolve fetch baseDomain root [] 0
    have e : cfg.maxDepth + 2 = cfg.maxDepth + 1 + 1 := rfl
    rw [e, crawlUrlF_succ, if_neg (by simp)] at he
    split at he
    · next hl2 =>
      rw [hlinks] at hl2
      exact Option.noConfusion hl2
    · next links2 hl2 =>
      rw [hlinks] at hl2
      injection hl2 with hl2
      subst hl2
      split at he
      · exact Option.noConfusion he
      · next s hcl =>
        injection he with he
        have hin1 : parsed.href ∈ (collectLinks resolve baseDomain (root :: []) links).1 :=
          collect_mem_product resolve baseDomain (root :: []) links ([], []) link parsed
            hmem hres hinc hprod
        have hin2 : parsed.href ∈ s.products :=
          crawlListF_products_mono cfg resolve fetch baseDomain (cfg.maxDepth + 1) (0 + 1)
            (collectLinks resolve baseDomain (root :: []) links).2 _ s hcl parsed.href hin1
        rw [← he]
        exact hin2

/-- C1 amended-theorem witness: on the scenario site the root's product
link `/product/42` is in the result. -/
theorem c1_amended_depth_bound_witness :
    (fetchAttempts fetchScenario "d" 0 scenarioConfig.retryLimit).links
        = some ["/product/42", "/about"] ∧
    "/product/42" ∈ (crawlUrl scenarioConfig resolveD fetchScenario "d" "d" [] 0).products :=
  ⟨by decide,
   (c1_amended_depth_bound scenarioConfig resolveD fetchScenario "d" "d").2
     ["/product/42", "/about"] "/product/42" ⟨"d", "/product/42", "/product/42"⟩
     (by decide) (by decide) (by decide) (by decide) (by decide)⟩

end Crawler
